import Mathlib

/-!
Verification development for the directus-extension-flat-tabs-interface
repository: a shallow embedding of the field-to-tab partitioning and
value-merging logic of the extension, together with proofs about it.

The JavaScript/TypeScript source is embedded as executable Lean functions:
JS strings/numbers/booleans/null/undefined become the inductive `Val`,
plain JS objects become association lists `Dict` (unique keys in practice),
and lodash `isEqual` on such objects becomes `Dict.eqv`.
-/

namespace FlatTabs

/-- A JS value of type `string | null | undefined`, compared with `===`
(strict equality: `null`, `undefined` and each string are pairwise
distinct). Used for `meta.group` / `meta.field` style attributes. -/
inductive JStr where
  | undef : JStr
  | null : JStr
  | str (s : String) : JStr
deriving DecidableEq, Repr

/-- An atomic JS value as stored in a form value dictionary.  `undef`
models the JS value `undefined` (a key may be present and map to it).
Structural (lodash `isEqual`) equality on these atoms coincides with
Lean equality. -/
inductive Val where
  | undef : Val
  | null : Val
  | str (s : String) : Val
  | num (n : Int) : Val
  | boolean (b : Bool) : Val
deriving DecidableEq, Repr

/-- A JS plain object used as a value dictionary: an association list
from field names to values.  JS objects never hold duplicate keys; the
operations below keep that invariant when they build dictionaries, and
lemmas assume `Nodup` keys where lookup determinism matters. -/
abbrev Dict := List (String × Val)

/-- Key lookup, `d[k]` when the key is an own property (first matching
entry); `none` models an absent key. -/
def Dict.get : Dict → String → Option Val
  | [], _ => none
  | kv :: rest, k => if kv.1 = k then some kv.2 else Dict.get rest k

/-- JS member access `d[k]`: an absent key reads as `undefined`. -/
def Dict.getJS (d : Dict) (k : String) : Val :=
  (Dict.get d k).getD Val.undef

/-- `Object.keys(d)`. -/
def Dict.keys (d : Dict) : List String := d.map Prod.fst

/-- JS property assignment `d[k] = v`: overwrite the existing entry in
place, or append a new one. -/
def Dict.set : Dict → String → Val → Dict
  | [], k, v => [(k, v)]
  | kv :: rest, k, v => if kv.1 = k then (k, v) :: rest else kv :: Dict.set rest k v

/-- lodash `isEqual` on two plain objects: same key set and structurally
equal values (order of keys is irrelevant). -/
def Dict.eqv (d1 d2 : Dict) : Bool :=
  ((Dict.keys d1).all fun k => Dict.get d1 k == Dict.get d2 k) &&
  ((Dict.keys d2).all fun k => Dict.get d1 k == Dict.get d2 k)

/-- `field.meta` in the Directus field descriptor: the attributes the
extension reads.  `field` is the group id the descriptor defines
(`meta.field`), `group` its parent group (`meta.group`, a string, `null`
or absent), `special` the marker list (`meta.special`), `interface` the
configured interface id, `optionsTitle` is `meta.options?.title`. -/
structure FieldMeta where
  field : String
  group : JStr
  special : Option (List String)
  interfaceId : Option String := none
  optionsTitle : JStr := JStr.undef
deriving DecidableEq, Repr

/-- A Directus field descriptor as consumed by the extension: its
name/key (`field`), display label (`name`), optional metadata and the
`hideLabel` flag the section builders set on a section's own field. -/
structure Field where
  field : String
  name : String
  meta : Option FieldMeta
  hideLabel : Bool := false
deriving DecidableEq, Repr

/-- `field.meta?.group`: `undefined` when the descriptor has no meta. -/
def metaGroup (f : Field) : JStr :=
  match f.meta with
  | some m => m.group
  | none => JStr.undef

/-- `field.meta?.special?.includes("group")`. -/
def isGroupField (f : Field) : Bool :=
  match f.meta with
  | some m => ((m.special).getD []).contains "group"
  | none => false

/-- `field.meta!.field` (only read after `isGroupField` holds, so the
meta is present; the default is never reached on those call sites). -/
def metaFieldOf (f : Field) : String :=
  match f.meta with
  | some m => m.field
  | none => ""

/-- `field.meta?.field` as the JS value passed to `getFieldsForGroup`:
`undefined` when there is no meta. -/
def metaFieldJ (f : Field) : JStr :=
  match f.meta with
  | some m => JStr.str m.field
  | none => JStr.undef

/-! ## Value view / merge layer (src/unnamed/part_000)

`handleModelUpdate` receives the section form's new values, keeps every
`allValues` entry whose key is outside the tab's field names, adds every
new value that differs structurally from its (section-filtered) initial
value, and emits the merged dictionary only when it differs structurally
from `allValues`.  The emitted event is modelled as `Option Dict`
(`none` = no `apply` event). -/

/-- The `filteredInitialValues` computed property of part_000: keep only
the entries of `initialValues` whose key names a field of this section
(iteration order of the source object is preserved). -/
def filteredInitialValues (fieldsInSec : List Field) (initialValues : Dict) : Dict :=
  initialValues.filter (fun kv => (fieldsInSec.map Field.field).contains kv.1)

/-- The edit-detection loop of `handleModelUpdate` run on an empty
target: for every edited entry keep it only when it differs structurally
from its initial value (this is the spec's `computeDelta`; in part_000
lines 126-131 the surviving keys are written into the merged object). -/
def computeDelta (fInit : Dict) (newValues : Dict) : Dict :=
  newValues.foldl
    (fun acc kv => if kv.2 == Dict.getJS fInit kv.1 then acc else Dict.set acc kv.1 kv.2) []

/-- The merged dictionary built by `handleModelUpdate` (part_000 lines
112-131): start from the entries of `allValues` outside the tab's field
names, then add every edited entry that differs from its initial value. -/
def mergeUp (tabFieldNames : List String) (allValues fInit newValues : Dict) : Dict :=
  let base := allValues.foldl
    (fun acc kv => if tabFieldNames.contains kv.1 then acc else Dict.set acc kv.1 kv.2) []
  newValues.foldl
    (fun acc kv => if kv.2 == Dict.getJS fInit kv.1 then acc else Dict.set acc kv.1 kv.2) base

/-- The local `mergedValues` of `handleModelUpdate`, wired to the
section's props: the tab field names come from `fieldsInSection` and the
initial values are the section-filtered ones. -/
def mergedValues (fieldsInSec : List Field) (allValues initialValues newValues : Dict) : Dict :=
  mergeUp (fieldsInSec.map Field.field) allValues
    (filteredInitialValues fieldsInSec initialValues) newValues

/-- `handleModelUpdate` of part_000: compute the merged dictionary and
emit it (`some`) only if it differs structurally from `allValues`. -/
def handleModelUpdate (fieldsInSec : List Field) (allValues initialValues newValues : Dict) :
    Option Dict :=
  if Dict.eqv (mergedValues fieldsInSec allValues initialValues newValues) allValues then none
  else some (mergedValues fieldsInSec allValues initialValues newValues)

/-! ## Group-membership resolver (`getFieldsForGroup`, Fields.vue composable)

The source builds `fieldsInGroup` by filtering the flat field list, then
iterates over that array while appending to it: every visited group field
not yet in `passed` is marked and the recursive result for its id is
pushed onto the end of the array (JS `for...of` also visits the appended
elements).  `gLoop` models that worklist: `queue` is the not-yet-visited
tail of the array, the output is the final array in visit order, and the
returned string list is the final state of the shared, mutated `passed`
array.  The subtype carries the facts needed for termination: every
output element came from the queue or from `fields`, and `passed` only
grows. -/

/-- The filter `field.meta?.group === group || (group === null && !field.meta)`
selecting the direct members of `group`. -/
def childrenOf (fields : List Field) (g : JStr) : List Field :=
  fields.filter (fun f => metaGroup f == g || (g == JStr.null && f.meta.isNone))

/-- The worklist of `getFieldsForGroup`: process `queue`, expanding each
not-yet-passed group field by appending the recursive result for its id,
exactly as the source's growing-array iteration does. -/
def gLoop (fields : List Field) (queue : List Field) (passed : List String) :
    {r : List Field × List String //
      (∀ x ∈ r.1, x ∈ queue ∨ x ∈ fields) ∧ passed ⊆ r.2} :=
  match queue with
  | [] => ⟨([], passed), ⟨fun x hx => absurd hx (List.not_mem_nil x), List.Subset.refl _⟩⟩
  | f :: rest =>
    if hg : isGroupField f = true ∧ passed.contains (metaFieldOf f) = false then
      match gLoop fields (childrenOf fields (JStr.str (metaFieldOf f)))
          (passed ++ [metaFieldOf f]) with
      | ⟨(sub, p2), hprop1⟩ =>
        match gLoop fields (rest ++ sub) p2 with
        | ⟨(out, p3), hprop2⟩ =>
          ⟨(f :: out, p3), by
            constructor
            · intro x hx
              rcases List.mem_cons.mp hx with rfl | hx
              · exact Or.inl (List.mem_cons_self _ _)
              · rcases hprop2.1 x hx with hx2 | hx2
                · rcases List.mem_append.mp hx2 with hx3 | hx3
                  · exact Or.inl (List.mem_cons_of_mem _ hx3)
                  · rcases hprop1.1 x hx3 with hx4 | hx4
                    · exact Or.inr (List.mem_of_mem_filter hx4)
                    · exact Or.inr hx4
                · exact Or.inr hx2
            · intro s hs
              exact hprop2.2 (hprop1.2 (List.mem_append_left _ hs))⟩
    else
      match gLoop fields rest passed with
      | ⟨(out, p2), hprop⟩ =>
        ⟨(f :: out, p2), by
          constructor
          · intro x hx
            rcases List.mem_cons.mp hx with rfl | hx
            · exact Or.inl (List.mem_cons_self _ _)
            · rcases hprop.1 x hx with hx2 | hx2
              · exact Or.inl (List.mem_cons_of_mem _ hx2)
              · exact Or.inr hx2
          · exact hprop.2⟩
termination_by
  (((fields.map metaFieldOf ++ queue.map metaFieldOf).toFinset \ passed.toFinset).card,
    queue.length)
decreasing_by
· apply Prod.Lex.left
  have hp : metaFieldOf f ∉ passed := by simpa using hg.2
  have hsub : ((fields.map metaFieldOf
        ++ (childrenOf fields (JStr.str (metaFieldOf f))).map metaFieldOf).toFinset
      \ (passed ++ [metaFieldOf f]).toFinset)
      ⊆ ((fields.map metaFieldOf ++ (f :: rest).map metaFieldOf).toFinset
        \ passed.toFinset) := by
    intro x hx
    simp only [Finset.mem_sdiff, List.mem_toFinset, List.mem_append, List.mem_map] at hx ⊢
    refine ⟨?_, fun hxp => hx.2 (Or.inl hxp)⟩
    rcases hx.1 with hx1 | hx1
    · exact Or.inl hx1
    · obtain ⟨c, hc, rfl⟩ := hx1
      exact Or.inl ⟨c, List.mem_of_mem_filter hc, rfl⟩
  refine Finset.card_lt_card (((Finset.ssubset_iff_of_subset hsub).mpr ?_))
  refine ⟨metaFieldOf f, ?_, ?_⟩
  · simp only [Finset.mem_sdiff, List.mem_toFinset, List.mem_append, List.mem_map]
    exact ⟨Or.inr ⟨f, List.mem_cons_self _ _, rfl⟩, hp⟩
  · simp only [Finset.mem_sdiff, List.mem_toFinset, List.mem_append, not_and, not_not]
    intro _
    simp
· apply Prod.Lex.left
  have hp : metaFieldOf f ∉ passed := by simpa using hg.2
  have hsub : ((fields.map metaFieldOf ++ (rest ++ sub).map metaFieldOf).toFinset
      \ p2.toFinset)
      ⊆ ((fields.map metaFieldOf ++ (f :: rest).map metaFieldOf).toFinset
        \ passed.toFinset) := by
    intro x hx
    simp only [Finset.mem_sdiff, List.mem_toFinset, List.mem_append, List.mem_map] at hx ⊢
    refine ⟨?_, fun hxp => hx.2 (hprop1.2 (List.mem_append_left _ hxp))⟩
    rcases hx.1 with hx1 | hx1
    · exact Or.inl hx1
    · obtain ⟨c, hc, rfl⟩ := hx1
      rcases hc with hc1 | hc1
      · exact Or.inr ⟨c, List.mem_cons_of_mem _ hc1, rfl⟩
      · rcases hprop1.1 c hc1 with hc2 | hc2
        · exact Or.inl ⟨c, List.mem_of_mem_filter hc2, rfl⟩
        · exact Or.inl ⟨c, hc2, rfl⟩
  refine Finset.card_lt_card (((Finset.ssubset_iff_of_subset hsub).mpr ?_))
  refine ⟨metaFieldOf f, ?_, ?_⟩
  · simp only [Finset.mem_sdiff, List.mem_toFinset, List.mem_append, List.mem_map]
    exact ⟨Or.inr ⟨f, List.mem_cons_self _ _, rfl⟩, hp⟩
  · simp only [Finset.mem_sdiff, List.mem_toFinset, not_and, not_not]
    intro _
    exact hprop1.2 (List.mem_append_right _ (List.mem_singleton_self _))
· have hsub : ((fields.map metaFieldOf ++ rest.map metaFieldOf).toFinset
      \ passed.toFinset)
      ⊆ ((fields.map metaFieldOf ++ (f :: rest).map metaFieldOf).toFinset
        \ passed.toFinset) := by
    intro x hx
    simp only [Finset.mem_sdiff, List.mem_toFinset, List.mem_append, List.mem_map] at hx ⊢
    refine ⟨?_, hx.2⟩
    rcases hx.1 with hx1 | hx1
    · exact Or.inl hx1
    · obtain ⟨c, hc, rfl⟩ := hx1
      exact Or.inr ⟨c, List.mem_cons_of_mem _ hc, rfl⟩
  rcases lt_or_eq_of_le (Finset.card_le_card hsub) with h | h
  · exact Prod.Lex.left _ _ h
  · rw [h]
    exact Prod.Lex.right _ (by simp)

/-- `getFieldsForGroup(group, passed, groupFields)` of the Fields.vue
composable: the final contents of the (growing) `fieldsInGroup` array. -/
def getFieldsForGroup (g : JStr) (passed : List String) (fields : List Field) : List Field :=
  (gLoop fields (childrenOf fields g) passed).val.1

/-! ## Tab-activation controller (src/unnamed/part_001) -/

/-- A validation error as consumed by the controller: the target field
name plus classification attributes (compared structurally as a whole by
the watcher's `isEqual`). -/
structure ValidationError where
  field : String
  code : String := ""
  type : String := ""
deriving DecidableEq, Repr

/-- `limitFields()` of part_001: the direct members of the interface's
own group, i.e. the tab group fields. -/
def limitFields (topMetaField : JStr) (fields : List Field) : List Field :=
  fields.filter (fun f => metaGroup f == topMetaField)

/-- `findTabGroupForField` of part_001 with an explicit recursion budget.
The source recursion has no visited-set guard, so on a cyclic
group-membership chain it never returns; `none` (for every budget) models
that divergence, `some r` the JS result `r` (`some none` = JS `null`). -/
def findTabGroupForFieldFuel (fields tabFields : List Field) :
    Nat → String → Option (Option String)
  | 0, _ => none
  | fuel + 1, fieldName =>
    match fields.find? (fun f => f.field == fieldName) with
    | none => some none
    | some f =>
      match metaGroup f with
      | JStr.str s =>
        if s = "" then some none
        else if tabFields.any (fun tf => tf.field == s) then some (some s)
        else findTabGroupForFieldFuel fields tabFields fuel s
      | _ => some none

/-- One firing of part_001's `watch(validationErrors)`: return the new
active tab (unchanged when the error list is empty, structurally equal to
the previous one, or when no owning tab is found).  The outer `Option` is
the recursion budget of `findTabGroupForFieldFuel`. -/
def validationWatchStep (fields tabFields : List Field) (fuel : Nat)
    (newVal oldVal : List ValidationError) (activeTab : Option String) :
    Option (Option String) :=
  if newVal.isEmpty then some activeTab
  else if newVal == oldVal then some activeTab
  else
    match newVal with
    | [] => some activeTab
    | e :: _ =>
      match findTabGroupForFieldFuel fields tabFields fuel e.field with
      | none => none
      | some none => some activeTab
      | some (some t) => some (some t)

/-- `visibleGroupFields` of part_001: tab groups whose resolved nested
field list is non-empty. -/
def visibleGroupFields (topMetaField : JStr) (fields : List Field) : List Field :=
  (limitFields topMetaField fields).filter
    (fun gf => decide (0 < (getFieldsForGroup (metaFieldJ gf) [] fields).length))

/-- One firing of part_001's `watch(visibleGroupFields)`: select the
first group's id when any is available, otherwise leave the active tab
unchanged (in particular unset when it was never set). -/
def activeTabWatchStep (newGroupFields : List Field) (current : Option String) :
    Option String :=
  match newGroupFields with
  | [] => current
  | gf :: _ => some gf.field

/-! ## Alternate section builder (src/src/composables/use-group-section.ts)
and the interface.vue rendering that consumes it -/

/-- The possible JS values of the `children` option: an array of field
descriptors or one of the non-array values the guards consider. -/
inductive ChildrenInput where
  | arr (fields : List Field)
  | strInput (s : String)
  | nullInput
  | undefInput
  | numInput (n : Int)
deriving DecidableEq, Repr

/-- JS falsiness of a `children` value (`!options.children`); note an
array — even an empty one — is truthy. -/
def jsFalsy : ChildrenInput → Bool
  | .arr _ => false
  | .strInput s => s == ""
  | .nullInput => true
  | .undefInput => true
  | .numInput n => n == 0

/-- `Array.isArray(options.children)`. -/
def isArrayCI : ChildrenInput → Bool
  | .arr _ => true
  | _ => false

/-- `typeof children === "string"`. -/
def isStringCI : ChildrenInput → Bool
  | .strInput _ => true
  | _ => false

/-- A derived section (tab) as built by use-group-section.ts. -/
structure GroupSection where
  id : String
  title : String
  name : String
  index : Nat
  fields : List Field
  meta : Option FieldMeta
deriving DecidableEq, Repr

/-- `child.meta?.options?.title || child.name || "Tab N"` with JS `||`
falsiness (an empty string falls through). -/
def sectionTitle (child : Field) (index : Nat) : String :=
  let fallback := if child.name ≠ "" then child.name else "Tab " ++ toString (index + 1)
  match child.meta with
  | some m =>
    match m.optionsTitle with
    | JStr.str s => if s ≠ "" then s else fallback
    | _ => fallback
  | none => fallback

/-- The section map of use-group-section.ts for an actual array of
children: keep the `group-raw` children (falling back to all children
when none is marked), and give each one its direct members only. -/
def buildSectionsFromList (children : List Field) : List GroupSection :=
  let filtered := children.filter (fun c =>
    match c.meta with
    | some m => m.interfaceId == some "group-raw"
    | none => false)
  let sectionsToProcess := if filtered.length > 0 then filtered else children
  sectionsToProcess.enum.map (fun ip =>
    let tabFields := children.filter
      (fun f => metaGroup f == JStr.str ip.2.field && f.field != ip.2.field)
    { id := ip.2.field
      title := sectionTitle ip.2 ip.1
      name := ip.2.name
      index := ip.1
      fields := { ip.2 with hideLabel := true } :: tabFields
      meta := ip.2.meta })

/-- `sections` of use-group-section.ts.  The JSON-parse branch for string
inputs is syntactically present in the source after the `Array.isArray`
guard; since only arrays reach it and an array is never a string, its
body is unreachable (proved as claim C10), so the `[]` here stands for
the never-executed parse-and-continue code. -/
def sections (children : ChildrenInput) : List GroupSection :=
  if jsFalsy children || !isArrayCI children then []
  else if isStringCI children then []
  else
    match children with
    | .arr cs => buildSectionsFromList cs
    | _ => []

/-- The guard conditions under which control would enter the JSON-parse
branch of `sections`. -/
def reachesParseBranch (children : ChildrenInput) : Bool :=
  !(jsFalsy children || !isArrayCI children) && isStringCI children

/-- interface.vue's template expression `sections[0].id` used as
`TabsRoot`'s `default-value`: on an empty section list, `sections[0]` is
`undefined` and reading `.id` of it throws a `TypeError` during render. -/
def tabsRootDefaultValue (secs : List GroupSection) : Except String String :=
  match secs with
  | [] => Except.error "TypeError"
  | s :: _ => Except.ok s.id

/-! ## Section field list (Fields.vue composable `fieldsInSection`) -/

/-- `fieldsInSection` of the Fields.vue `useGroupSection` composable: the
section's own field with its label hidden, followed — when the field is a
group — by the recursively resolved nested fields. -/
def fieldsInSection (field : Field) (groupFields : List Field) : List Field :=
  if isGroupField field then
    { field with hideLabel := true } :: getFieldsForGroup (metaFieldJ field) [] groupFields
  else [{ field with hideLabel := true }]

/-! ## Concrete example descriptors used as witness and counterexample inputs -/

/-- A group field `a` whose own parent group is `b` — one half of a
cyclic group-membership configuration. -/
def cA : Field :=
  { field := "a", name := "A",
    meta := some { field := "a", group := JStr.str "b", special := some ["group"] } }

/-- A group field `b` whose own parent group is `a` — the other half of
the cycle. -/
def cB : Field :=
  { field := "b", name := "B",
    meta := some { field := "b", group := JStr.str "a", special := some ["group"] } }

/-- A tab group field `grp1` sitting in the top-level group `top`. -/
def exGrp1 : Field :=
  { field := "grp1", name := "Group 1",
    meta := some { field := "grp1", group := JStr.str "top", special := some ["group"] } }

/-- A plain field `title` inside `grp1`. -/
def exTitle : Field :=
  { field := "title", name := "Title",
    meta := some { field := "title", group := JStr.str "grp1", special := none } }

/-- An intermediate group `grp1x` inside `grp1`; `grp1x` is not itself a
tab (its parent group is `grp1`, not `top`). -/
def exGrp1x : Field :=
  { field := "grp1x", name := "Group 1x",
    meta := some { field := "grp1x", group := JStr.str "grp1", special := some ["group"] } }

/-- A plain field `subtitle` inside the non-tab group `grp1x`. -/
def exSubtitle : Field :=
  { field := "subtitle", name := "Subtitle",
    meta := some { field := "subtitle", group := JStr.str "grp1x", special := none } }

/-- The C5 scenario field list: tab `grp1`, nested group `grp1x`, and
`subtitle` inside `grp1x`. -/
def c5fields : List Field := [exGrp1, exGrp1x, exSubtitle]

/-- A plain field `sub` whose group chain enters the cycle `a → b → a`. -/
def c6sub : Field :=
  { field := "sub", name := "Sub",
    meta := some { field := "sub", group := JStr.str "a", special := none } }

/-- The C6 field list: `sub` hangs off the cyclic groups `a` and `b`,
and no field belongs to the top-level group, so there is no tab id to
stop the walk. -/
def c6fields : List Field := [cA, cB, c6sub]

/-- A second tab group `grp2` in `top` with no nested fields at all. -/
def exGrp2 : Field :=
  { field := "grp2", name := "Group 2",
    meta := some { field := "grp2", group := JStr.str "top", special := some ["group"] } }

/-- The C9 field list: tab `grp1` holds `title`, tab `grp2` is empty. -/
def c9fields : List Field := [exGrp1, exTitle, exGrp2]

/-- A `group-raw` child that becomes a tab in the alternate builder. -/
def tsG1 : Field :=
  { field := "g1", name := "G1",
    meta := some
      { field := "g1", group := JStr.undef, special := some ["group"],
        interfaceId := some "group-raw" } }

/-- A sub-group nested directly inside `g1`. -/
def tsG2 : Field :=
  { field := "g2", name := "G2",
    meta := some
      { field := "g2", group := JStr.str "g1", special := some ["group"],
        interfaceId := some "group-standard" } }

/-- A field nested inside the sub-group `g2` — a transitive descendant
of `g1` but not a direct child of it. -/
def tsB : Field :=
  { field := "b", name := "Body",
    meta := some { field := "b", group := JStr.str "g2", special := none } }

/-! ## Lemmas about the dictionary model -/

theorem Dict.get_set (d : Dict) (k : String) (v : Val) (k' : String) :
    Dict.get (Dict.set d k v) k' = if k = k' then some v else Dict.get d k' := by
  induction d with
  | nil => by_cases h : k = k' <;> simp [Dict.set, Dict.get, h]
  | cons kv rest ih =>
    by_cases h1 : kv.1 = k
    · subst h1
      simp only [Dict.set, if_pos rfl, Dict.get]
      by_cases h2 : kv.1 = k' <;> simp [h2]
    · simp only [Dict.set, if_neg h1, Dict.get]
      by_cases h2 : kv.1 = k'
      · have h3 : k ≠ k' := fun he => h1 (he ▸ h2)
        simp [h2, h3]
      · simp [h2, ih]

theorem Dict.get_eq_none_of_not_mem_keys (d : Dict) (k : String)
    (h : k ∉ Dict.keys d) : Dict.get d k = none := by
  induction d with
  | nil => rfl
  | cons kv rest ih =>
    simp only [Dict.keys, List.map_cons, List.mem_cons, not_or] at h
    have h1 : ¬ kv.1 = k := fun hh => h.1 hh.symm
    simp only [Dict.get, if_neg h1]
    exact ih h.2

theorem Dict.mem_keys_of_get_some (d : Dict) (k : String) (v : Val)
    (h : Dict.get d k = some v) : k ∈ Dict.keys d := by
  by_contra hn
  rw [Dict.get_eq_none_of_not_mem_keys d k hn] at h
  exact Option.noConfusion h

theorem Dict.mem_of_get_some (d : Dict) (k : String) (v : Val)
    (h : Dict.get d k = some v) : (k, v) ∈ d := by
  induction d with
  | nil => exact Option.noConfusion h
  | cons kv rest ih =>
    by_cases h1 : kv.1 = k
    · simp only [Dict.get, if_pos h1] at h
      obtain rfl : kv.2 = v := Option.some.inj h
      have hkv : kv = (k, kv.2) := Prod.ext h1 rfl
      rw [← hkv]
      exact List.mem_cons_self _ _
    · simp only [Dict.get, if_neg h1] at h
      exact List.mem_cons_of_mem _ (ih h)

theorem Dict.get_of_mem (d : Dict) (kv : String × Val) (h : kv ∈ d)
    (hnd : (Dict.keys d).Nodup) : Dict.get d kv.1 = some kv.2 := by
  induction d with
  | nil => exact absurd h (List.not_mem_nil _)
  | cons kv' rest ih =>
    simp only [Dict.keys, List.map_cons, List.nodup_cons] at hnd
    rcases List.mem_cons.mp h with h1 | h1
    · subst h1
      simp [Dict.get]
    · have hne : kv'.1 ≠ kv.1 := by
        intro he
        exact hnd.1 (he ▸ List.mem_map_of_mem Prod.fst h1)
      simp only [Dict.get, if_neg hne]
      exact ih h1 hnd.2

theorem Dict.eqv_iff (d1 d2 : Dict) :
    Dict.eqv d1 d2 = true ↔ ∀ k, Dict.get d1 k = Dict.get d2 k := by
  constructor
  · intro h k
    simp only [Dict.eqv, Bool.and_eq_true, List.all_eq_true, beq_iff_eq] at h
    by_cases h1 : k ∈ Dict.keys d1
    · exact h.1 k h1
    · by_cases h2 : k ∈ Dict.keys d2
      · exact h.2 k h2
      · rw [Dict.get_eq_none_of_not_mem_keys d1 k h1,
          Dict.get_eq_none_of_not_mem_keys d2 k h2]
  · intro h
    simp only [Dict.eqv, Bool.and_eq_true, List.all_eq_true, beq_iff_eq]
    exact ⟨fun k _ => h k, fun k _ => h k⟩

/-- Lookup through a key-predicate filter, as used by
`filteredInitialValues`: kept keys read through, dropped keys vanish. -/
theorem Dict.get_filter_key (c : String → Bool) (d : Dict) (k : String) :
    Dict.get (d.filter (fun kv => c kv.1)) k = if c k then Dict.get d k else none := by
  induction d with
  | nil => cases hc : c k <;> simp [Dict.get, hc]
  | cons kv rest ih =>
    by_cases hk : kv.1 = k
    · subst hk
      cases hc : c kv.1 <;> simp [List.filter_cons, hc, Dict.get, ih]
    · cases hc : c kv.1 <;> simp [List.filter_cons, hc, Dict.get, hk, ih]

/-- A conditional-write fold in which every entry is skipped returns its
accumulator unchanged. -/
theorem foldl_set_skip_all (c : String × Val → Bool) (l : Dict) (acc : Dict)
    (h : ∀ kv ∈ l, c kv = true) :
    l.foldl (fun a kv => if c kv then a else Dict.set a kv.1 kv.2) acc = acc := by
  induction l generalizing acc with
  | nil => rfl
  | cons kv rest ih =>
    simp only [List.foldl_cons, if_pos (h kv (List.mem_cons_self _ _))]
    exact ih _ (fun kv' h' => h kv' (List.mem_cons_of_mem _ h'))

/-- A fold step that writes only keys occurring in the folded list
leaves every other lookup unchanged. -/
theorem foldl_set_get_of_not_mem (c : String × Val → Bool) (l : Dict) (acc : Dict)
    (k : String) (h : ∀ kv ∈ l, kv.1 ≠ k) :
    Dict.get (l.foldl (fun a kv => if c kv then a else Dict.set a kv.1 kv.2) acc) k
      = Dict.get acc k := by
  induction l generalizing acc with
  | nil => rfl
  | cons kv rest ih =>
    simp only [List.foldl_cons]
    rw [ih _ (fun kv' h' => h kv' (List.mem_cons_of_mem _ h'))]
    by_cases hc : c kv
    · rw [if_pos hc]
    · rw [if_neg hc, Dict.get_set, if_neg (h kv (List.mem_cons_self _ _))]

/-- Lookup after the conditional-write fold used by `mergeUp`:
for a key present in the folded list (with `Nodup` keys, as JS objects
guarantee) the written value wins unless the step's condition skipped
it; absent keys fall through to the accumulator. -/
theorem foldl_set_get (c : String × Val → Bool) (l : Dict) (acc : Dict) (k : String)
    (hnd : (Dict.keys l).Nodup) :
    Dict.get (l.foldl (fun a kv => if c kv then a else Dict.set a kv.1 kv.2) acc) k
      = match Dict.get l k with
        | some v => if c (k, v) then Dict.get acc k else some v
        | none => Dict.get acc k := by
  induction l generalizing acc with
  | nil => rfl
  | cons kv rest ih =>
    simp only [Dict.keys, List.map_cons, List.nodup_cons] at hnd
    by_cases hk : kv.1 = k
    · have hrest : ∀ kv' ∈ rest, kv'.1 ≠ k := by
        intro kv' h' he
        have hm : kv'.1 ∈ List.map Prod.fst rest := List.mem_map_of_mem Prod.fst h'
        rw [he, ← hk] at hm
        exact hnd.1 hm
      simp only [List.foldl_cons]
      rw [foldl_set_get_of_not_mem c rest _ k hrest]
      subst hk
      by_cases hc : c kv
      · rw [if_pos hc]
        simp [Dict.get, hc]
      · rw [if_neg hc, Dict.get_set, if_pos rfl]
        simp only [Bool.not_eq_true] at hc
        simp [Dict.get, hc]
    · simp only [List.foldl_cons]
      rw [ih _ hnd.2]
      have hacc : ∀ a : Dict,
          Dict.get (if c kv then a else Dict.set a kv.1 kv.2) k = Dict.get a k := by
        intro a
        by_cases hc : c kv
        · rw [if_pos hc]
        · rw [if_neg hc, Dict.get_set, if_neg hk]
      rw [hacc, Dict.get, if_neg hk]

/-- Lookup in the base of `mergeUp` (part_000 lines 117-122): entries of
`allValues` survive exactly outside the tab's field names. -/
theorem mergeUp_base_get (tabFieldNames : List String) (allValues : Dict) (k : String)
    (hA : (Dict.keys allValues).Nodup) :
    Dict.get (allValues.foldl
        (fun acc kv => if tabFieldNames.contains kv.1 then acc else Dict.set acc kv.1 kv.2) [])
        k
      = match Dict.get allValues k with
        | some v => if tabFieldNames.contains k then none else some v
        | none => none := by
  rw [foldl_set_get (fun kv => tabFieldNames.contains kv.1) allValues [] k hA]
  cases Dict.get allValues k <;> rfl

/-- Full lookup characterisation of `mergeUp`. -/
theorem mergeUp_get (tabFieldNames : List String) (allValues fInit newValues : Dict)
    (k : String) (hA : (Dict.keys allValues).Nodup) (hN : (Dict.keys newValues).Nodup) :
    Dict.get (mergeUp tabFieldNames allValues fInit newValues) k
      = match Dict.get newValues k with
        | some v =>
          if v == Dict.getJS fInit k then
            match Dict.get allValues k with
            | some w => if tabFieldNames.contains k then none else some w
            | none => none
          else some v
        | none =>
          match Dict.get allValues k with
          | some w => if tabFieldNames.contains k then none else some w
          | none => none := by
  unfold mergeUp
  rw [foldl_set_get (fun kv => kv.2 == Dict.getJS fInit kv.1) newValues _ k hN,
    mergeUp_base_get tabFieldNames allValues k hA]

theorem contains_iff (l : List String) (k : String) : l.contains k = true ↔ k ∈ l := by
  simp

/-- For a key the filter keeps, the section-filtered initial values read
the same as the full initial values. -/
theorem filteredInitialValues_getJS (fieldsInSec : List Field) (initialValues : Dict)
    (k : String) (hk : (fieldsInSec.map Field.field).contains k = true) :
    Dict.getJS (filteredInitialValues fieldsInSec initialValues) k
      = Dict.getJS initialValues k := by
  unfold filteredInitialValues Dict.getJS
  rw [Dict.get_filter_key (fun s => (fieldsInSec.map Field.field).contains s)
    initialValues k, if_pos hk]

/-! ## Unfolding lemmas for the group-resolver worklist -/

theorem gLoop_nil (fields : List Field) (passed : List String) :
    (gLoop fields [] passed).val = ([], passed) := by
  rw [gLoop]

theorem gLoop_cons_push (fields : List Field) (f : Field) (rest : List Field)
    (passed : List String) (sub : List Field) (p2 : List String) (out : List Field)
    (p3 : List String)
    (hg : isGroupField f = true ∧ passed.contains (metaFieldOf f) = false)
    (h1 : (gLoop fields (childrenOf fields (JStr.str (metaFieldOf f)))
      (passed ++ [metaFieldOf f])).val = (sub, p2))
    (h2 : (gLoop fields (rest ++ sub) p2).val = (out, p3)) :
    (gLoop fields (f :: rest) passed).val = (f :: out, p3) := by
  rw [gLoop]
  rw [dif_pos hg]
  split
  rename_i sub1 p21 hp1 heq1
  rw [heq1] at h1
  simp only [Subtype.mk.injEq] at h1
  obtain ⟨rfl, rfl⟩ := Prod.mk.injEq .. |>.mp h1
  split
  rename_i out1 p31 hp2 heq2
  rw [heq2] at h2
  simp only [Subtype.mk.injEq] at h2
  obtain ⟨rfl, rfl⟩ := Prod.mk.injEq .. |>.mp h2
  rfl

theorem gLoop_cons_skip (fields : List Field) (f : Field) (rest : List Field)
    (passed : List String) (out : List Field) (p2 : List String)
    (hg : ¬(isGroupField f = true ∧ passed.contains (metaFieldOf f) = false))
    (h : (gLoop fields rest passed).val = (out, p2)) :
    (gLoop fields (f :: rest) passed).val = (f :: out, p2) := by
  rw [gLoop]
  rw [dif_neg hg]
  split
  rename_i out1 p21 hp heq
  rw [heq] at h
  simp only [Subtype.mk.injEq] at h
  obtain ⟨rfl, rfl⟩ := Prod.mk.injEq .. |>.mp h
  rfl

/-- Every member of `childrenOf fields (str p)` really names `p` as its
parent group (the `group === null` disjunct cannot fire for a string). -/
theorem mem_childrenOf_str (fields : List Field) (p : String) (x : Field)
    (hx : x ∈ childrenOf fields (JStr.str p)) : metaGroup x = JStr.str p := by
  unfold childrenOf at hx
  have hcond := (List.mem_filter.mp hx).2
  simp only [Bool.or_eq_true, Bool.and_eq_true, beq_iff_eq] at hcond
  rcases hcond with h | ⟨h, _⟩
  · exact h
  · exact JStr.noConfusion h

/-- The worklist invariant behind the amended C2: when every group field
currently queued names an already-visited parent group, the traversal
emits no field twice, and every emitted field either was queued or has a
parent group that was newly pushed during the traversal. -/
theorem gLoop_nodup (fields : List Field) (hF : fields.Nodup) :
    ∀ (queue : List Field) (passed : List String), queue.Nodup →
      (∀ f ∈ queue, ∀ s, metaGroup f = JStr.str s → s ∈ passed) →
      (gLoop fields queue passed).val.1.Nodup
      ∧ (∀ x ∈ (gLoop fields queue passed).val.1,
          x ∈ queue ∨ ∃ s, metaGroup x = JStr.str s ∧ s ∉ passed
            ∧ s ∈ (gLoop fields queue passed).val.2) := by
  intro queue passed
  induction queue, passed using gLoop.induct fields with
  | case1 passed =>
    intro _ _
    rw [gLoop_nil]
    exact ⟨List.nodup_nil, by simp⟩
  | case2 passed f rest hg sub p2 hprop1 heq1 out p3 hprop2 heq2 ih1 ih2 =>
    intro hQ hInv
    have h1v : (gLoop fields (childrenOf fields (JStr.str (metaFieldOf f)))
        (passed ++ [metaFieldOf f])).val = (sub, p2) := by rw [heq1]
    have h2v : (gLoop fields (rest ++ sub) p2).val = (out, p3) := by rw [heq2]
    have hE : (gLoop fields (f :: rest) passed).val = (f :: out, p3) :=
      gLoop_cons_push fields f rest passed sub p2 out p3 hg h1v h2v
    have hpnotin : metaFieldOf f ∉ passed := by simpa using hg.2
    have hQrest : rest.Nodup := (List.nodup_cons.mp hQ).2
    have hfrest : f ∉ rest := (List.nodup_cons.mp hQ).1
    have hpass1 : passed ++ [metaFieldOf f] ⊆ p2 := hprop1.2
    have hp23 : p2 ⊆ p3 := hprop2.2
    have hInvf : ∀ s, metaGroup f = JStr.str s → s ∈ passed :=
      hInv f (List.mem_cons_self _ _)
    -- invariant for the expanded group's direct members
    have hsubN : sub.Nodup ∧ ∀ x ∈ sub, x ∈ childrenOf fields (JStr.str (metaFieldOf f))
        ∨ ∃ s, metaGroup x = JStr.str s ∧ s ∉ passed ++ [metaFieldOf f] ∧ s ∈ p2 := by
      have h := ih1 (List.Nodup.filter _ hF) ?_
      · rw [h1v] at h
        exact h
      · intro x hx t ht
        have hgx := mem_childrenOf_str fields (metaFieldOf f) x hx
        rw [hgx] at ht
        obtain rfl : t = metaFieldOf f := (JStr.str.injEq _ _).mp ht.symm
        exact List.mem_append_right _ (List.mem_singleton_self _)
    -- a queued field never reappears among the expansion's results
    have hrest_sub : ∀ x ∈ rest, x ∉ sub := by
      intro x hxr hxs
      rcases hsubN.2 x hxs with hc | ⟨s, hgs, hsn, _⟩
      · have := mem_childrenOf_str fields (metaFieldOf f) x hc
        exact hpnotin (hInv x (List.mem_cons_of_mem _ hxr) (metaFieldOf f) this)
      · exact hsn (List.mem_append_left _ (hInv x (List.mem_cons_of_mem _ hxr) s hgs))
    have houtN : out.Nodup ∧ ∀ x ∈ out, x ∈ rest ++ sub
        ∨ ∃ s, metaGroup x = JStr.str s ∧ s ∉ p2 ∧ s ∈ p3 := by
      have h := ih2 (List.Nodup.append hQrest hsubN.1 hrest_sub) ?_
      · rw [h2v] at h
        exact h
      · intro x hx t ht
        rcases List.mem_append.mp hx with hxr | hxs
        · exact hpass1 (List.mem_append_left _ (hInv x (List.mem_cons_of_mem _ hxr) t ht))
        · rcases hsubN.2 x hxs with hc | ⟨s, hgs, _, hsp2⟩
          · have hgx := mem_childrenOf_str fields (metaFieldOf f) x hc
            rw [hgx] at ht
            obtain rfl : t = metaFieldOf f := (JStr.str.injEq _ _).mp ht.symm
            exact hpass1 (List.mem_append_right _ (List.mem_singleton_self _))
          · rw [hgs] at ht
            obtain rfl : t = s := (JStr.str.injEq _ _).mp ht.symm
            exact hsp2
    rw [hE]
    constructor
    · rw [List.nodup_cons]
      refine ⟨?_, houtN.1⟩
      intro hfo
      rcases houtN.2 f hfo with hfa | ⟨s, hgs, hsp2, _⟩
      · rcases List.mem_append.mp hfa with hfr | hfs
        · exact hfrest hfr
        · rcases hsubN.2 f hfs with hc | ⟨s, hgs, hsn, _⟩
          · exact hpnotin (hInvf (metaFieldOf f)
              (mem_childrenOf_str fields (metaFieldOf f) f hc))
          · exact hsn (List.mem_append_left _ (hInvf s hgs))
      · exact hsp2 (hpass1 (List.mem_append_left _ (hInvf s hgs)))
    · intro x hx
      rcases List.mem_cons.mp hx with rfl | hxo
      · exact Or.inl (List.mem_cons_self _ _)
      · rcases houtN.2 x hxo with hxa | ⟨s, hgs, hsp2, hsp3⟩
        · rcases List.mem_append.mp hxa with hxr | hxs
          · exact Or.inl (List.mem_cons_of_mem _ hxr)
          · rcases hsubN.2 x hxs with hc | ⟨s, hgs, hsn, hsp2⟩
            · refine Or.inr ⟨metaFieldOf f,
                mem_childrenOf_str fields (metaFieldOf f) x hc, hpnotin, ?_⟩
              exact hp23 (hpass1 (List.mem_append_right _ (List.mem_singleton_self _)))
            · exact Or.inr ⟨s, hgs, fun hsp => hsn (List.mem_append_left _ hsp),
                hp23 hsp2⟩
        · exact Or.inr ⟨s, hgs, fun hsp => hsp2 (hpass1 (List.mem_append_left _ hsp)), hsp3⟩
  | case3 passed f rest hg out p2 hprop heq ih =>
    intro hQ hInv
    have hv : (gLoop fields rest passed).val = (out, p2) := by rw [heq]
    have hE : (gLoop fields (f :: rest) passed).val = (f :: out, p2) :=
      gLoop_cons_skip fields f rest passed out p2 hg hv
    have hQrest : rest.Nodup := (List.nodup_cons.mp hQ).2
    have hfrest : f ∉ rest := (List.nodup_cons.mp hQ).1
    have houtN : out.Nodup ∧ ∀ x ∈ out, x ∈ rest
        ∨ ∃ s, metaGroup x = JStr.str s ∧ s ∉ passed ∧ s ∈ p2 := by
      have h := ih hQrest (fun x hx => hInv x (List.mem_cons_of_mem _ hx))
      rw [hv] at h
      exact h
    rw [hE]
    constructor
    · rw [List.nodup_cons]
      refine ⟨?_, houtN.1⟩
      intro hfo
      rcases houtN.2 f hfo with hfr | ⟨s, hgs, hsn, _⟩
      · exact hfrest hfr
      · exact hsn (hInv f (List.mem_cons_self _ _) s hgs)
    · intro x hx
      rcases List.mem_cons.mp hx with rfl | hxo
      · exact Or.inl (List.mem_cons_self _ _)
      · rcases houtN.2 x hxo with hxr | ⟨s, hgs, hsn, hsp2⟩
        · exact Or.inl (List.mem_cons_of_mem _ hxr)
        · exact Or.inr ⟨s, hgs, hsn, hsp2⟩

/-! ## Claim theorems -/

/-- C1: for every full value dictionary `allValues`, every section
(described by its `fieldsInSection` list) and every edit set whose keys
all come from that section, the merged dictionary built by
`handleModelUpdate` maps every key outside the section's field names to
exactly its `allValues` entry, maps every edited key whose value differs
structurally from its initial value to the edited value, and holds no
entry for a section field that is absent from the edits or whose edited
value structurally equals its initial value. -/
theorem c1_mergeUp_partitions (fieldsInSec : List Field)
    (allValues initialValues newValues : Dict)
    (hA : (Dict.keys allValues).Nodup) (hN : (Dict.keys newValues).Nodup)
    (hSub : ∀ k ∈ Dict.keys newValues, k ∈ fieldsInSec.map Field.field) :
    (∀ k, k ∉ fieldsInSec.map Field.field →
        Dict.get (mergedValues fieldsInSec allValues initialValues newValues) k
          = Dict.get allValues k)
    ∧ (∀ k v, Dict.get newValues k = some v → v ≠ Dict.getJS initialValues k →
        Dict.get (mergedValues fieldsInSec allValues initialValues newValues) k = some v)
    ∧ (∀ k, k ∈ fieldsInSec.map Field.field →
        (Dict.get newValues k = none
          ∨ Dict.get newValues k = some (Dict.getJS initialValues k)) →
        Dict.get (mergedValues fieldsInSec allValues initialValues newValues) k = none) := by
  have hm := fun k => mergeUp_get (fieldsInSec.map Field.field) allValues
    (filteredInitialValues fieldsInSec initialValues) newValues k hA hN
  refine ⟨?_, ?_, ?_⟩
  · intro k hk
    have hkc : (fieldsInSec.map Field.field).contains k = false := by
      rw [← Bool.not_eq_true]
      exact fun hc => hk ((contains_iff _ _).mp hc)
    have hkN : Dict.get newValues k = none :=
      Dict.get_eq_none_of_not_mem_keys _ _ (fun hmem => hk (hSub k hmem))
    rw [mergedValues, hm k, hkN]
    simp only [hkc]
    cases hAv : Dict.get allValues k <;> simp
  · intro k v hv hne
    have hkc : (fieldsInSec.map Field.field).contains k = true :=
      (contains_iff _ _).mpr (hSub k (Dict.mem_keys_of_get_some _ _ _ hv))
    have hbe : (v == Dict.getJS (filteredInitialValues fieldsInSec initialValues) k) = false := by
      rw [filteredInitialValues_getJS fieldsInSec initialValues k hkc]
      exact beq_eq_false_iff_ne.mpr hne
    rw [mergedValues, hm k, hv]
    simp [hbe]
  · intro k hk hcase
    have hkc : (fieldsInSec.map Field.field).contains k = true := (contains_iff _ _).mpr hk
    rcases hcase with hno | heq
    · rw [mergedValues, hm k, hno]
      simp only [hkc]
      cases hAv : Dict.get allValues k <;> simp
    · have hbe : (Dict.getJS initialValues k ==
          Dict.getJS (filteredInitialValues fieldsInSec initialValues) k) = true := by
        rw [filteredInitialValues_getJS fieldsInSec initialValues k hkc]
        exact beq_self_eq_true _
      rw [mergedValues, hm k, heq]
      simp only [hkc, hbe]
      cases hAv : Dict.get allValues k <;> simp

/-- Witness for C1 at a concrete input: section `grp1` holding `title`,
with `body` outside it; `title` is edited from `"A"` to `"A2"`. -/
theorem c1_mergeUp_partitions_witness :
    ((Dict.keys [("title", Val.str "A"), ("body", Val.str "B")]).Nodup
      ∧ (Dict.keys [("title", Val.str "A2")]).Nodup
      ∧ ∀ k ∈ Dict.keys [("title", Val.str "A2")], k ∈ [exGrp1, exTitle].map Field.field)
    ∧ ((∀ k, k ∉ [exGrp1, exTitle].map Field.field →
        Dict.get (mergedValues [exGrp1, exTitle]
          [("title", Val.str "A"), ("body", Val.str "B")]
          [("title", Val.str "A"), ("body", Val.str "B")]
          [("title", Val.str "A2")]) k
          = Dict.get [("title", Val.str "A"), ("body", Val.str "B")] k)
      ∧ (∀ k v, Dict.get [("title", Val.str "A2")] k = some v →
          v ≠ Dict.getJS [("title", Val.str "A"), ("body", Val.str "B")] k →
          Dict.get (mergedValues [exGrp1, exTitle]
            [("title", Val.str "A"), ("body", Val.str "B")]
            [("title", Val.str "A"), ("body", Val.str "B")]
            [("title", Val.str "A2")]) k = some v)
      ∧ (∀ k, k ∈ [exGrp1, exTitle].map Field.field →
          (Dict.get [("title", Val.str "A2")] k = none
            ∨ Dict.get [("title", Val.str "A2")] k
                = some (Dict.getJS [("title", Val.str "A"), ("body", Val.str "B")] k)) →
          Dict.get (mergedValues [exGrp1, exTitle]
            [("title", Val.str "A"), ("body", Val.str "B")]
            [("title", Val.str "A"), ("body", Val.str "B")]
            [("title", Val.str "A2")]) k = none)) :=
  ⟨⟨by decide, by decide, by decide⟩,
    c1_mergeUp_partitions [exGrp1, exTitle] _ _ _ (by decide) (by decide) (by decide)⟩

/-- C2 counterexample: with the cyclic configuration `a → b → a`,
resolving group `a` (with the empty visited list, as every call site
does) returns `[b, a, b]` — the field `b` appears twice, so the claim
that the resolved sequence contains each field descriptor at most once,
even under cyclic group references, is false. -/
theorem c2_cycle_duplicates_counterexample :
    getFieldsForGroup (JStr.str "a") [] [cA, cB] = [cB, cA, cB]
    ∧ List.count cB (getFieldsForGroup (JStr.str "a") [] [cA, cB]) = 2 := by
  have hchA : childrenOf [cA, cB] (JStr.str "a") = [cB] := by decide
  have hchB : childrenOf [cA, cB] (JStr.str "b") = [cA] := by decide
  have e0 : (gLoop [cA, cB] [] ["b", "a"]).val = ([], ["b", "a"]) :=
    gLoop_nil [cA, cB] ["b", "a"]
  have e1 : (gLoop [cA, cB] [cB] ["b", "a"]).val = ([cB], ["b", "a"]) :=
    gLoop_cons_skip [cA, cB] cB [] ["b", "a"] [] ["b", "a"] (by decide) e0
  have e2 : (gLoop [cA, cB] [cA] ["b", "a"]).val = ([cA], ["b", "a"]) :=
    gLoop_cons_skip [cA, cB] cA [] ["b", "a"] [] ["b", "a"] (by decide) e0
  have e3 : (gLoop [cA, cB] [cA, cB] ["b", "a"]).val = ([cA, cB], ["b", "a"]) :=
    gLoop_cons_skip [cA, cB] cA [cB] ["b", "a"] [cB] ["b", "a"] (by decide) e1
  have e4 : (gLoop [cA, cB] [cA] ["b"]).val = ([cA, cB], ["b", "a"]) := by
    refine gLoop_cons_push [cA, cB] cA [] ["b"] [cB] ["b", "a"] [cB] ["b", "a"]
      (by decide) ?_ e1
    show (gLoop [cA, cB] (childrenOf [cA, cB] (JStr.str "a")) ["b", "a"]).val = _
    rw [hchA]
    exact e1
  have e5 : (gLoop [cA, cB] [cB] []).val = ([cB, cA, cB], ["b", "a"]) := by
    refine gLoop_cons_push [cA, cB] cB [] [] [cA, cB] ["b", "a"] [cA, cB] ["b", "a"]
      (by decide) ?_ e3
    show (gLoop [cA, cB] (childrenOf [cA, cB] (JStr.str "b")) ["b"]).val = _
    rw [hchB]
    exact e4
  have hres : getFieldsForGroup (JStr.str "a") [] [cA, cB] = [cB, cA, cB] := by
    unfold getFieldsForGroup
    rw [hchA, e5]
  exact ⟨hres, by rw [hres]; decide⟩

/-- C2 (amended): the resolver emits each field descriptor at most once
provided the queried group id is already on the visited list — so any
cycle among the descendant groups (back to a deeper ancestor, or between
siblings) is de-duplicated; only a cycle that reaches the queried id
itself with the empty initial visited list can duplicate fields, as the
counterexample shows. -/
theorem c2_descendants_nodup_amended (fields : List Field) (s : String)
    (passed : List String) (hF : fields.Nodup) (hs : s ∈ passed) :
    (getFieldsForGroup (JStr.str s) passed fields).Nodup := by
  unfold getFieldsForGroup
  have h := gLoop_nodup fields hF (childrenOf fields (JStr.str s)) passed
    (List.Nodup.filter _ hF) ?_
  · exact h.1
  · intro f hf t ht
    have hgf := mem_childrenOf_str fields s f hf
    rw [hgf] at ht
    obtain rfl : t = s := (JStr.str.injEq _ _).mp ht.symm
    exact hs

/-- Witness for C2 (amended) on the cyclic configuration `a → b → a`
with the queried id `a` pre-marked as visited: the traversal still
crosses the cycle yet emits no duplicate. -/
theorem c2_descendants_nodup_amended_witness :
    (([cA, cB] : List Field).Nodup ∧ "a" ∈ ["a"])
    ∧ (getFieldsForGroup (JStr.str "a") ["a"] [cA, cB]).Nodup :=
  ⟨⟨by decide, by decide⟩,
    c2_descendants_nodup_amended [cA, cB] "a" ["a"] (by decide) (by decide)⟩

/-- C3 counterexample: the claim "editing a field and then reverting it
to its initial value produces no outbound event" is false at this
concrete input.  After `title` was edited to `"A2"` (so `allValues`
carries it), reverting `title` to its initial `"A"` makes
`handleModelUpdate` emit an `apply` event carrying the dictionary with
the reverted key dropped, instead of staying silent. -/
theorem c3_revert_still_emits_counterexample :
    handleModelUpdate [exGrp1, exTitle]
      [("title", Val.str "A2"), ("body", Val.str "B")]
      [("title", Val.str "A"), ("body", Val.str "B")]
      [("title", Val.str "A")]
      = some [("body", Val.str "B")] := by decide

/-- C3 (amended): applying the delta computation to an edit set
structurally identical to the section's initial values yields an empty
delta — no key survives; the outbound event is then suppressed provided
the full value dictionary holds no entry for any section field
(otherwise one event dropping those entries is still emitted, as the
counterexample shows). -/
theorem c3_empty_delta_amended (fieldsInSec : List Field)
    (allValues initialValues newValues : Dict)
    (hA : (Dict.keys allValues).Nodup) (hN : (Dict.keys newValues).Nodup)
    (hId : Dict.eqv newValues (filteredInitialValues fieldsInSec initialValues) = true) :
    computeDelta (filteredInitialValues fieldsInSec initialValues) newValues = []
    ∧ ((∀ kv ∈ allValues, (fieldsInSec.map Field.field).contains kv.1 = false) →
        handleModelUpdate fieldsInSec allValues initialValues newValues = none) := by
  have hskip : ∀ kv ∈ newValues,
      (kv.2 == Dict.getJS (filteredInitialValues fieldsInSec initialValues) kv.1) = true := by
    intro kv hkv
    have h1 : Dict.get newValues kv.1 = some kv.2 := Dict.get_of_mem _ _ hkv hN
    have h2 : Dict.get (filteredInitialValues fieldsInSec initialValues) kv.1 = some kv.2 := by
      rw [← (Dict.eqv_iff _ _).mp hId kv.1]
      exact h1
    simp [Dict.getJS, h2]
  constructor
  · exact foldl_set_skip_all _ _ _ hskip
  · intro hOut
    have hbase : mergedValues fieldsInSec allValues initialValues newValues
        = allValues.foldl
            (fun acc kv => if (fieldsInSec.map Field.field).contains kv.1 then acc
              else Dict.set acc kv.1 kv.2) [] := by
      unfold mergedValues mergeUp
      exact foldl_set_skip_all _ _ _ hskip
    have heqv : Dict.eqv (mergedValues fieldsInSec allValues initialValues newValues)
        allValues = true := by
      rw [Dict.eqv_iff]
      intro k
      rw [hbase, mergeUp_base_get (fieldsInSec.map Field.field) allValues k hA]
      cases hAv : Dict.get allValues k with
      | none => simp
      | some w =>
        have hkc : (fieldsInSec.map Field.field).contains k = false :=
          hOut (k, w) (Dict.mem_of_get_some _ _ _ hAv)
        simp only [hkc]
        simp
    unfold handleModelUpdate
    rw [if_pos heqv]

/-- Witness for C3 (amended) at a concrete input: `title` is reverted to
its initial `"A"` while `allValues` holds only the outside field `body`,
so the delta is empty and no event fires. -/
theorem c3_empty_delta_amended_witness :
    ((Dict.keys [("body", Val.str "B")]).Nodup
      ∧ (Dict.keys [("title", Val.str "A")]).Nodup
      ∧ Dict.eqv [("title", Val.str "A")]
          (filteredInitialValues [exGrp1, exTitle]
            [("title", Val.str "A"), ("body", Val.str "B")]) = true)
    ∧ (computeDelta (filteredInitialValues [exGrp1, exTitle]
          [("title", Val.str "A"), ("body", Val.str "B")]) [("title", Val.str "A")] = []
      ∧ ((∀ kv ∈ ([("body", Val.str "B")] : Dict),
            ([exGrp1, exTitle].map Field.field).contains kv.1 = false) →
          handleModelUpdate [exGrp1, exTitle] [("body", Val.str "B")]
            [("title", Val.str "A"), ("body", Val.str "B")]
            [("title", Val.str "A")] = none)) :=
  ⟨⟨by decide, by decide, by decide⟩,
    c3_empty_delta_amended [exGrp1, exTitle] _ _ _ (by decide) (by decide) (by decide)⟩

/-- C4: whenever the merged dictionary computed by the value-merge layer
is structurally equal to the previously reported full value dictionary
(`allValues`), `handleModelUpdate` emits no `apply` event. -/
theorem c4_noop_suppression (fieldsInSec : List Field)
    (allValues initialValues newValues : Dict)
    (h : Dict.eqv (mergedValues fieldsInSec allValues initialValues newValues)
      allValues = true) :
    handleModelUpdate fieldsInSec allValues initialValues newValues = none := by
  unfold handleModelUpdate
  rw [if_pos h]

/-- Witness for C4 at a concrete input: a revert-only update whose merge
reproduces `allValues` exactly, so no event fires. -/
theorem c4_noop_suppression_witness :
    (Dict.eqv (mergedValues [exGrp1, exTitle] [("body", Val.str "B")]
        [("title", Val.str "A")] [("title", Val.str "A")])
        [("body", Val.str "B")] = true)
    ∧ handleModelUpdate [exGrp1, exTitle] [("body", Val.str "B")]
        [("title", Val.str "A")] [("title", Val.str "A")] = none :=
  ⟨by decide, c4_noop_suppression [exGrp1, exTitle] _ _ _ (by decide)⟩

/-- C5: whenever the validation-error list changes structurally and is
non-empty, the watcher takes the first error's field name, walks up the
group chain, and activates the tab it finds; in particular, for
`subtitle` inside the non-tab group `grp1x` whose own group `grp1` is a
tab id, an error on `subtitle` activates tab `grp1`, overriding any
current selection. -/
theorem c5_error_activates_owning_tab :
    (∀ (fields tabFields : List Field) (fuel : Nat) (e : ValidationError)
        (rest oldVal : List ValidationError) (activeTab : Option String) (t : String),
        ((e :: rest : List ValidationError) == oldVal) = false →
        findTabGroupForFieldFuel fields tabFields fuel e.field = some (some t) →
        validationWatchStep fields tabFields fuel (e :: rest) oldVal activeTab
          = some (some t))
    ∧ ∀ activeTab : Option String,
        validationWatchStep c5fields (limitFields (JStr.str "top") c5fields) 2
          [{ field := "subtitle" }] [] activeTab = some (some "grp1") := by
  constructor
  · intro fields tabFields fuel e rest oldVal activeTab t hne hf
    simp only [validationWatchStep, List.isEmpty_cons, Bool.false_eq_true, if_false, hne, hf]
  · intro activeTab
    rfl

/-- Witness for C5 at the scenario input: the error list `[subtitle]`
differs from the previous empty one and the chain walk lands on `grp1`,
so the watcher activates `grp1`. -/
theorem c5_error_activates_owning_tab_witness :
    ((([⟨"subtitle", "", ""⟩] : List ValidationError) == ([] : List ValidationError)) = false
      ∧ findTabGroupForFieldFuel c5fields (limitFields (JStr.str "top") c5fields) 2
          "subtitle" = some (some "grp1"))
    ∧ validationWatchStep c5fields (limitFields (JStr.str "top") c5fields) 2
        [⟨"subtitle", "", ""⟩] [] none = some (some "grp1") :=
  ⟨⟨by decide, by decide⟩,
    c5_error_activates_owning_tab.1 c5fields (limitFields (JStr.str "top") c5fields) 2
      ⟨"subtitle", "", ""⟩ [] [] none "grp1" (by decide) (by decide)⟩

/-- C6: the claim says the walk up the group chain terminates even on a
cyclic chain that never reaches a tab id, crediting the visited-set
guard of the resolver — but `findTabGroupForField` has no such guard: on
the cycle `a → b → a` it recurses forever (a stack overflow at runtime).
No recursion budget ever suffices to produce a result. -/
theorem c6_find_tab_walk_diverges_on_cycle :
    ∀ fuel : Nat, findTabGroupForFieldFuel c6fields
      (limitFields (JStr.str "top") c6fields) fuel "sub" = none := by
  have key : ∀ n : Nat,
      findTabGroupForFieldFuel c6fields (limitFields (JStr.str "top") c6fields) n "a" = none
      ∧ findTabGroupForFieldFuel c6fields (limitFields (JStr.str "top") c6fields) n "b"
          = none := by
    intro n
    induction n with
    | zero => exact ⟨rfl, rfl⟩
    | succ n ih =>
      refine ⟨?_, ?_⟩
      · have hstep : findTabGroupForFieldFuel c6fields
            (limitFields (JStr.str "top") c6fields) (n + 1) "a"
            = findTabGroupForFieldFuel c6fields
              (limitFields (JStr.str "top") c6fields) n "b" := rfl
        rw [hstep]
        exact ih.2
      · have hstep : findTabGroupForFieldFuel c6fields
            (limitFields (JStr.str "top") c6fields) (n + 1) "b"
            = findTabGroupForFieldFuel c6fields
              (limitFields (JStr.str "top") c6fields) n "a" := rfl
        rw [hstep]
        exact ih.1
  intro fuel
  cases fuel with
  | zero => rfl
  | succ n =>
    have hstep : findTabGroupForFieldFuel c6fields
        (limitFields (JStr.str "top") c6fields) (n + 1) "sub"
        = findTabGroupForFieldFuel c6fields
          (limitFields (JStr.str "top") c6fields) n "a" := rfl
    rw [hstep]
    exact (key n).1

/-- C7 counterexample: with an empty field list the alternate builder
yields zero sections, and interface.vue's template expression
`sections[0].id` (the `TabsRoot` default value) then dereferences
`undefined` — an exception is raised, contrary to the claim that none
is. -/
theorem c7_empty_sections_raises_counterexample :
    sections (ChildrenInput.arr []) = []
    ∧ tabsRootDefaultValue (sections (ChildrenInput.arr []))
        = Except.error "TypeError" :=
  ⟨rfl, rfl⟩

/-- C7 (amended): while the section list is empty the active-tab
reference is left unchanged (so it stays unset) and the part_001 watcher
raises no exception; when the list first becomes non-empty the first
section's id becomes the active tab.  The alternate interface.vue
rendering path, however, throws a `TypeError` evaluating the tab strip's
default value on an empty section list. -/
theorem c7_initial_tab_amended :
    (∀ current : Option String, activeTabWatchStep [] current = current)
    ∧ (∀ (gf : Field) (rest : List Field) (current : Option String),
        activeTabWatchStep (gf :: rest) current = some gf.field)
    ∧ tabsRootDefaultValue [] = Except.error "TypeError" :=
  ⟨fun _ => rfl, fun _ _ _ => rfl, rfl⟩

/-- C8 counterexample: the alternate builder of use-group-section.ts
gives the tab `g1` only its direct children — the field `b` nested
inside the sub-group `g2` is missing from the built section's field
list, so the claim that every built section carries all transitive
descendants is false. -/
theorem c8_direct_children_only_counterexample :
    (sections (ChildrenInput.arr [tsG1, tsG2, tsB])).map GroupSection.fields
      = [[{ tsG1 with hideLabel := true }, tsG2]]
    ∧ ∀ sec ∈ sections (ChildrenInput.arr [tsG1, tsG2, tsB]), tsB ∉ sec.fields := by
  decide

/-- C8 (amended): the section field list built by the Fields.vue
composable is the section's own group field with its label suppressed,
followed by all transitively resolved descendant fields — including, as
the concrete instance shows, fields nested inside sub-groups.  (The
alternate use-group-section.ts builder instead includes direct children
only, per the counterexample.) -/
theorem c8_fieldsInSection_amended :
    (∀ (f : Field) (groupFields : List Field),
        (fieldsInSection f groupFields).head? = some { f with hideLabel := true })
    ∧ (∀ (f : Field) (groupFields : List Field), isGroupField f = true →
        fieldsInSection f groupFields
          = { f with hideLabel := true }
            :: getFieldsForGroup (metaFieldJ f) [] groupFields)
    ∧ tsB ∈ fieldsInSection tsG1 [tsG1, tsG2, tsB] := by
  refine ⟨?_, ?_, ?_⟩
  · intro f g
    unfold fieldsInSection
    split <;> rfl
  · intro f g h
    unfold fieldsInSection
    rw [if_pos h]
  · have hch2 : childrenOf [tsG1, tsG2, tsB] (JStr.str "g2") = [tsB] := by decide
    have e0 : (gLoop [tsG1, tsG2, tsB] [] ["g2"]).val = ([], ["g2"]) := gLoop_nil _ _
    have e1 : (gLoop [tsG1, tsG2, tsB] [tsB] ["g2"]).val = ([tsB], ["g2"]) :=
      gLoop_cons_skip _ tsB [] ["g2"] [] ["g2"] (by decide) e0
    have e2 : (gLoop [tsG1, tsG2, tsB] [tsG2] []).val = ([tsG2, tsB], ["g2"]) := by
      refine gLoop_cons_push _ tsG2 [] [] [tsB] ["g2"] [tsB] ["g2"] (by decide) ?_ e1
      show (gLoop [tsG1, tsG2, tsB]
        (childrenOf [tsG1, tsG2, tsB] (JStr.str "g2")) ["g2"]).val = ([tsB], ["g2"])
      rw [hch2]
      exact e1
    unfold fieldsInSection
    rw [if_pos (by decide : isGroupField tsG1 = true)]
    refine List.mem_cons_of_mem _ ?_
    unfold getFieldsForGroup
    have hch : childrenOf [tsG1, tsG2, tsB] (metaFieldJ tsG1) = [tsG2] := by decide
    rw [hch, e2]
    decide

/-- Witness for C8 (amended) at a concrete group field. -/
theorem c8_fieldsInSection_amended_witness :
    isGroupField tsG1 = true
    ∧ fieldsInSection tsG1 [tsG1, tsG2, tsB]
        = { tsG1 with hideLabel := true }
          :: getFieldsForGroup (metaFieldJ tsG1) [] [tsG1, tsG2, tsB] :=
  ⟨by decide, c8_fieldsInSection_amended.2.1 tsG1 [tsG1, tsG2, tsB] (by decide)⟩

/-- C9: a tab group whose resolved nested field list is empty never
appears among `visibleGroupFields`, and every group that does appear
(i.e. every tab that renders) has at least one nested field. -/
theorem c9_empty_tabs_excluded (topMetaField : JStr) (fields : List Field) :
    (∀ gf ∈ limitFields topMetaField fields,
        getFieldsForGroup (metaFieldJ gf) [] fields = [] →
        gf ∉ visibleGroupFields topMetaField fields)
    ∧ ∀ gf ∈ visibleGroupFields topMetaField fields,
        getFieldsForGroup (metaFieldJ gf) [] fields ≠ [] := by
  constructor
  · intro gf _ hempty hvis
    have h := (List.mem_filter.mp hvis).2
    rw [hempty] at h
    simp at h
  · intro gf hvis hempty
    have h := (List.mem_filter.mp hvis).2
    rw [hempty] at h
    simp at h

/-- Witness for C9 at a concrete input: the childless tab `grp2` is a
tab group yet is excluded from the visible sequence. -/
theorem c9_empty_tabs_excluded_witness :
    (exGrp2 ∈ limitFields (JStr.str "top") c9fields
      ∧ getFieldsForGroup (metaFieldJ exGrp2) [] c9fields = [])
    ∧ exGrp2 ∉ visibleGroupFields (JStr.str "top") c9fields := by
  have hempty : getFieldsForGroup (metaFieldJ exGrp2) [] c9fields = [] := by
    unfold getFieldsForGroup
    have hch : childrenOf c9fields (metaFieldJ exGrp2) = [] := by decide
    rw [hch, gLoop_nil]
  exact ⟨⟨by decide, hempty⟩,
    (c9_empty_tabs_excluded (JStr.str "top") c9fields).1 exGrp2 (by decide) hempty⟩

/-- C10: every non-array `children` input (a JSON string included)
yields an empty section list, and the JSON-string parse branch is
unreachable: its guard can never be satisfied, because every non-array
input already returned the empty list and an array is never a string. -/
theorem c10_nonarray_children_empty :
    (∀ c : ChildrenInput, isArrayCI c = false → sections c = [])
    ∧ ∀ c : ChildrenInput, reachesParseBranch c = false := by
  constructor
  · intro c hc
    have hcond : (jsFalsy c || !isArrayCI c) = true := by
      rw [hc]
      simp
    unfold sections
    rw [if_pos hcond]
  · intro c
    cases c <;> simp [reachesParseBranch, isArrayCI, isStringCI, jsFalsy]

/-- Witness for C10 at a concrete JSON-string input. -/
theorem c10_nonarray_children_empty_witness :
    isArrayCI (ChildrenInput.strInput "[1, 2]") = false
    ∧ sections (ChildrenInput.strInput "[1, 2]") = [] :=
  ⟨by decide, c10_nonarray_children_empty.1 (ChildrenInput.strInput "[1, 2]") (by decide)⟩

end FlatTabs
